import Mathlib

/-!
Shallow embedding of the version-comparison core of `src/util.ts`
(`parseVersion`, `compareVersion`, `compareVersions`, `versionToString`
and the boolean wrappers), together with proofs of the specified
properties.

Strings are modelled through their character lists.  The regular
expression `(\d+)\.(\d+)\.(\d+)(.*)` used by `parseVersion` is embedded
as an explicit leftmost-match scanner: for this particular pattern a
greedy digit run followed by a literal dot admits no useful
backtracking (shortening a maximal digit run leaves a digit, never a
dot, as the next character), so the deterministic scanner computes
exactly the JavaScript `RegExp.exec` result.

JavaScript numbers holding version components are modelled as exact
natural numbers: every value the code puts in a `Version` field is a
non-negative integer (`parseInt` on a digit group), rendered back in
decimal by string interpolation.
-/

namespace Util

/-- The `Version` interface of `util.ts`: three numeric fields.
JavaScript numbers holding the captured digit groups are non-negative
integers, modelled as `Nat`. -/
structure Version where
  major : Nat
  minor : Nat
  patch : Nat
deriving DecidableEq, Repr

/-- The single error class of the version core
(`class InvalidVersionString extends Error`), carrying its message. -/
inductive VersionError where
  | InvalidVersionString (msg : String) : VersionError
deriving DecidableEq, Repr

/-- The `Ordering` enum of `util.ts`. -/
inductive Ordering where
  | Greater
  | Equivalent
  | Less
deriving DecidableEq, Repr, BEq

/-- A group of one or more characters that are all decimal digits —
what a `\d+` capture group holds. -/
def allDigits (l : List Char) : Bool :=
  !l.isEmpty && l.all Char.isDigit

/-- `parseInt(g, 10)` on a captured digit group: base-10 value of a
digit string, most significant digit first. -/
def natOfDigits (l : List Char) : Nat :=
  l.foldl (fun acc c => acc * 10 + (c.toNat - '0'.toNat)) 0

/-- One attempt of the pattern `(\d+)\.(\d+)\.(\d+)` anchored at the
head of `l`.  Returns the three (greedy, hence maximal) digit groups
and the remainder of the list after the third group.  The trailing
`(.*)` group always matches and is reconstructed by `execVersionRe`. -/
def matchAt (l : List Char) : Option (List Char × List Char × List Char × List Char) :=
  let d1 := l.takeWhile Char.isDigit
  let r1 := l.dropWhile Char.isDigit
  if d1.isEmpty then none
  else
    match r1 with
    | '.' :: r2 =>
      let d2 := r2.takeWhile Char.isDigit
      let r3 := r2.dropWhile Char.isDigit
      if d2.isEmpty then none
      else
        match r3 with
        | '.' :: r4 =>
          let d3 := r4.takeWhile Char.isDigit
          let r5 := r4.dropWhile Char.isDigit
          if d3.isEmpty then none else some (d1, d2, d3, r5)
        | _ => none
    | _ => none

/-- Leftmost match: try the pattern at each successive start position,
as `RegExp.exec` does for an unanchored pattern. -/
def findMatch : List Char → Option (List Char × List Char × List Char × List Char)
  | [] => none
  | c :: cs =>
    match matchAt (c :: cs) with
    | some m => some m
    | none => findMatch cs

/-- The full result array of `version_re.exec(str)`: entry 0 is the
whole match, entries 1–4 the capture groups.  Group 4 is `(.*)`:
greedy, stops only at a newline (JavaScript `.` does not match
newlines). -/
def execVersionRe (l : List Char) : Option (List (List Char)) :=
  match findMatch l with
  | none => none
  | some (d1, d2, d3, rest) =>
    let g4 := rest.takeWhile (fun c => c ≠ '\n')
    some [d1 ++ '.' :: (d2 ++ '.' :: (d3 ++ g4)), d1, d2, d3, g4]

/-- `parseVersion` of `util.ts`.  The destructuring
`const [, major, minor, patch] = mat` is `List.get?` at indices 1–3,
and the `?? '0'` fallbacks are `Option.getD ['0']`. -/
def parseVersion (str : String) : Except VersionError Version :=
  match execVersionRe str.data with
  | none => .error (.InvalidVersionString ("Invalid version string " ++ str))
  | some mat =>
    let major := mat.get? 1
    let minor := mat.get? 2
    let patch := mat.get? 3
    .ok { major := natOfDigits (major.getD ['0'])
          minor := natOfDigits (minor.getD ['0'])
          patch := natOfDigits (patch.getD ['0']) }

instance {ε α : Type} [DecidableEq ε] [DecidableEq α] : DecidableEq (Except ε α) := fun x y =>
  match x, y with
  | .error a, .error b =>
    if h : a = b then .isTrue (by rw [h])
    else .isFalse (by intro hh; cases hh; exact h rfl)
  | .ok a, .ok b =>
    if h : a = b then .isTrue (by rw [h])
    else .isFalse (by intro hh; cases hh; exact h rfl)
  | .error _, .ok _ => .isFalse (by intro hh; cases hh)
  | .ok _, .error _ => .isFalse (by intro hh; cases hh)

/-- `compareVersion` of `util.ts`: the numeric-difference comparator.
JavaScript subtraction of the integer fields is `Int` subtraction. -/
def compareVersion (va vb : Version) : Int :=
  if va.major ≠ vb.major then (va.major : Int) - (vb.major : Int)
  else if va.minor ≠ vb.minor then (va.minor : Int) - (vb.minor : Int)
  else (va.patch : Int) - (vb.patch : Int)

/-- An argument of `compareVersions`: `Version | string`. -/
inductive VersionArg where
  | ver (v : Version)
  | str (s : String)

/-- The `typeof a === 'string'` re-binding at the top of
`compareVersions`: a string argument is parsed, a struct argument is
used as is. -/
def resolveVersionArg : VersionArg → Except VersionError Version
  | .ver v => .ok v
  | .str s => parseVersion s

/-- `compareVersions` of `util.ts`: parse string arguments (a thrown
parse error propagates, the left argument first), then the
major/minor/patch comparison chain. -/
def compareVersions (a b : VersionArg) : Except VersionError Ordering :=
  match resolveVersionArg a with
  | .error e => .error e
  | .ok va =>
    match resolveVersionArg b with
    | .error e => .error e
    | .ok vb =>
      if va.major > vb.major then .ok .Greater
      else if va.major < vb.major then .ok .Less
      else if va.minor > vb.minor then .ok .Greater
      else if va.minor < vb.minor then .ok .Less
      else if va.patch > vb.patch then .ok .Greater
      else if va.patch < vb.patch then .ok .Less
      else .ok .Equivalent

/-- `versionGreater` of `util.ts`. -/
def versionGreater (lhs rhs : VersionArg) : Except VersionError Bool :=
  (compareVersions lhs rhs).map (fun o => o == Ordering.Greater)

/-- `versionGreaterOrEquals` of `util.ts`. -/
def versionGreaterOrEquals (lhs rhs : VersionArg) : Except VersionError Bool :=
  (compareVersions lhs rhs).map
    (fun o => (Ordering.Greater == o) || (Ordering.Equivalent == o))

/-- `versionEquals` of `util.ts`. -/
def versionEquals (lhs rhs : VersionArg) : Except VersionError Bool :=
  (compareVersions lhs rhs).map (fun o => o == Ordering.Equivalent)

/-- `versionLess` of `util.ts`. -/
def versionLess (lhs rhs : VersionArg) : Except VersionError Bool :=
  (compareVersions lhs rhs).map (fun o => o == Ordering.Less)

/-- `versionLessOrEquals` of `util.ts`. -/
def versionLessOrEquals (lhs rhs : VersionArg) : Except VersionError Bool :=
  (compareVersions lhs rhs).map
    (fun o => (Ordering.Less == o) || (Ordering.Equivalent == o))

/-- Decimal rendering of a natural number, least to most significant
digit, with an explicit structural fuel (`n` itself suffices). -/
def natToCharsAux : Nat → Nat → List Char
  | 0, _ => []
  | _ + 1, 0 => []
  | fuel + 1, n + 1 =>
    natToCharsAux fuel ((n + 1) / 10) ++ [Nat.digitChar ((n + 1) % 10)]

/-- Decimal rendering of a `Nat`, as JavaScript string interpolation
renders a non-negative integer. -/
def natToChars (n : Nat) : List Char :=
  if n = 0 then ['0'] else natToCharsAux n n

/-- String form of the decimal rendering. -/
def natToString (n : Nat) : String :=
  ⟨natToChars n⟩

/-- `versionToString` of `util.ts`: the template string
`${major}.${minor}.${patch}`. -/
def versionToString (ver : Version) : String :=
  natToString ver.major ++ "." ++ natToString ver.minor ++ "." ++ natToString ver.patch

/-! ### Helper lemmas about digit groups and the embedded regex -/

lemma allDigits_iff {l : List Char} :
    allDigits l = true ↔ l.isEmpty = false ∧ l.all Char.isDigit = true := by
  simp [allDigits, Bool.not_eq_true']

lemma takeWhile_all {p : Char → Bool} {l : List Char} (h : l.all p = true) :
    l.takeWhile p = l ∧ l.dropWhile p = [] := by
  induction l with
  | nil => simp
  | cons c cs ih =>
    simp only [List.all_cons, Bool.and_eq_true] at h
    simp [List.takeWhile_cons, List.dropWhile_cons, h.1, ih h.2]

lemma takeWhile_append_cons {p : Char → Bool} {l : List Char} {x : Char} (xs : List Char)
    (hl : l.all p = true) (hx : p x = false) :
    ((l ++ x :: xs).takeWhile p = l) ∧ ((l ++ x :: xs).dropWhile p = x :: xs) := by
  induction l with
  | nil => simp [List.takeWhile_cons, List.dropWhile_cons, hx]
  | cons c cs ih =>
    simp only [List.all_cons, Bool.and_eq_true] at hl
    simp [List.takeWhile_cons, List.dropWhile_cons, hl.1, ih hl.2]

lemma takeWhile_append_ne_nil {p : Char → Bool} {l : List Char} (r : List Char)
    (hne : l.isEmpty = false) (hall : l.all p = true) :
    ((l ++ r).takeWhile p).isEmpty = false := by
  cases l with
  | nil => simp at hne
  | cons c cs =>
    simp only [List.all_cons, Bool.and_eq_true] at hall
    simp [List.takeWhile_cons, hall.1]

lemma allDigits_takeWhile (l : List Char)
    (hne : (l.takeWhile Char.isDigit).isEmpty = false) :
    allDigits (l.takeWhile Char.isDigit) = true := by
  rw [allDigits_iff]
  exact ⟨hne, List.all_eq_true.mpr fun c hc => List.mem_takeWhile_imp hc⟩

/-- A successful anchored match decomposes the list into the three
digit groups, the two literal dots, and the remainder. -/
lemma matchAt_eq_some {l d1 d2 d3 r : List Char}
    (h : matchAt l = some (d1, d2, d3, r)) :
    l = d1 ++ '.' :: (d2 ++ '.' :: (d3 ++ r)) ∧
      allDigits d1 = true ∧ allDigits d2 = true ∧ allDigits d3 = true := by
  simp only [matchAt] at h
  split at h
  · exact absurd h (by simp)
  · rename_i hne1
    split at h
    · rename_i r2 heq1
      split at h
      · exact absurd h (by simp)
      · rename_i hne2
        split at h
        · rename_i r4 heq2
          split at h
          · exact absurd h (by simp)
          · rename_i hne3
            simp only [Option.some.injEq, Prod.mk.injEq] at h
            obtain ⟨e1, e2, e3, e4⟩ := h
            subst e1; subst e2; subst e3; subst e4
            rw [Bool.not_eq_true] at hne1 hne2 hne3
            refine ⟨?_, allDigits_takeWhile l hne1, allDigits_takeWhile r2 hne2,
              allDigits_takeWhile r4 hne3⟩
            conv_lhs => rw [← List.takeWhile_append_dropWhile Char.isDigit l, heq1]
            congr 1
            rw [List.cons.injEq]
            refine ⟨rfl, ?_⟩
            conv_lhs => rw [← List.takeWhile_append_dropWhile Char.isDigit r2, heq2]
            congr 1
            rw [List.cons.injEq]
            exact ⟨rfl, (List.takeWhile_append_dropWhile Char.isDigit r4).symm⟩
        · exact absurd h (by simp)
    · exact absurd h (by simp)

/-- An anchored match succeeds on any list of the pattern's shape
(groups may extend into the suffix, but a match exists). -/
lemma matchAt_shape_isSome {d1 d2 d3 : List Char} (suf : List Char)
    (h1 : allDigits d1 = true) (h2 : allDigits d2 = true) (h3 : allDigits d3 = true) :
    (matchAt (d1 ++ '.' :: (d2 ++ '.' :: (d3 ++ suf)))).isSome = true := by
  rw [allDigits_iff] at h1 h2 h3
  have t1 := takeWhile_append_cons (p := Char.isDigit) (x := '.')
    (d2 ++ '.' :: (d3 ++ suf)) h1.2 (by decide)
  have t2 := takeWhile_append_cons (p := Char.isDigit) (x := '.') (d3 ++ suf) h2.2 (by decide)
  have t3 := takeWhile_append_ne_nil (p := Char.isDigit) suf h3.1 h3.2
  simp [matchAt, t1.1, t1.2, t2.1, t2.2, t3, h1.1, h2.1]

/-- An anchored match on exactly the pattern's shape (all-digit groups,
nothing after the third group) returns exactly those groups. -/
lemma matchAt_exact {d1 d2 d3 : List Char}
    (h1 : allDigits d1 = true) (h2 : allDigits d2 = true) (h3 : allDigits d3 = true) :
    matchAt (d1 ++ '.' :: (d2 ++ '.' :: d3)) = some (d1, d2, d3, []) := by
  rw [allDigits_iff] at h1 h2 h3
  have t1 := takeWhile_append_cons (p := Char.isDigit) (x := '.')
    (d2 ++ '.' :: d3) h1.2 (by decide)
  have t2 := takeWhile_append_cons (p := Char.isDigit) (x := '.') d3 h2.2 (by decide)
  have t3 := takeWhile_all h3.2
  simp [matchAt, t1.1, t1.2, t2.1, t2.2, t3.1, t3.2, h1.1, h2.1, h3.1]

lemma findMatch_cons_some {c : Char} {cs : List Char}
    {m : List Char × List Char × List Char × List Char}
    (h : matchAt (c :: cs) = some m) : findMatch (c :: cs) = some m := by
  simp [findMatch, h]

/-- If the pattern matches somewhere (at drop position `i`), the
unanchored search succeeds. -/
lemma findMatch_isSome_of_drop {l : List Char} {i : Nat}
    (h : (matchAt (l.drop i)).isSome = true) : (findMatch l).isSome = true := by
  induction l generalizing i with
  | nil => simp [matchAt] at h
  | cons c cs ih =>
    cases hm : matchAt (c :: cs) with
    | some m => simp [findMatch, hm]
    | none =>
      cases i with
      | zero => rw [List.drop_zero, hm] at h; simp at h
      | succ j =>
        rw [List.drop_succ_cons] at h
        simpa [findMatch, hm] using ih h

/-- A successful unanchored search decomposes the whole list: some
skipped head, then the pattern shape with exactly the found groups. -/
lemma findMatch_eq_some {l d1 d2 d3 r : List Char}
    (h : findMatch l = some (d1, d2, d3, r)) :
    ∃ pre, l = pre ++ (d1 ++ '.' :: (d2 ++ '.' :: (d3 ++ r))) ∧
      allDigits d1 = true ∧ allDigits d2 = true ∧ allDigits d3 = true := by
  induction l with
  | nil => simp [findMatch] at h
  | cons c cs ih =>
    rw [findMatch] at h
    cases hm : matchAt (c :: cs) with
    | some m =>
      rw [hm] at h
      injection h with h
      subst h
      obtain ⟨hl, a1, a2, a3⟩ := matchAt_eq_some hm
      exact ⟨[], by simpa using hl, a1, a2, a3⟩
    | none =>
      rw [hm] at h
      obtain ⟨pre, hp, a1, a2, a3⟩ := ih h
      exact ⟨c :: pre, by rw [List.cons_append, ← hp], a1, a2, a3⟩

/-- The unanchored search returns the match at the first position where
an anchored match exists: every earlier position fails. -/
lemma findMatch_leftmost {l : List Char}
    {m : List Char × List Char × List Char × List Char}
    (h : findMatch l = some m) :
    ∃ i, matchAt (l.drop i) = some m ∧ ∀ j, j < i → matchAt (l.drop j) = none := by
  induction l with
  | nil => simp [findMatch] at h
  | cons c cs ih =>
    rw [findMatch] at h
    cases hm : matchAt (c :: cs) with
    | some m' =>
      rw [hm] at h
      injection h with h
      subst h
      exact ⟨0, by simpa using hm, fun j hj => absurd hj (Nat.not_lt_zero j)⟩
    | none =>
      rw [hm] at h
      obtain ⟨i, hi, hlt⟩ := ih h
      refine ⟨i + 1, by simpa [List.drop_succ_cons] using hi, ?_⟩
      intro j hj
      cases j with
      | zero => simpa using hm
      | succ k => rw [List.drop_succ_cons]; exact hlt k (by omega)

/-! ### Helper lemmas about decimal rendering -/

lemma digitChar_isDigit {m : Nat} (h : m < 10) : (Nat.digitChar m).isDigit = true := by
  interval_cases m <;> decide

lemma toNat_digitChar {m : Nat} (h : m < 10) :
    (Nat.digitChar m).toNat - '0'.toNat = m := by
  interval_cases m <;> decide

lemma natOfDigits_append_digit (l : List Char) (c : Char) :
    natOfDigits (l ++ [c]) = natOfDigits l * 10 + (c.toNat - '0'.toNat) := by
  simp [natOfDigits, List.foldl_append]

lemma natToCharsAux_all : ∀ fuel n : Nat, (natToCharsAux fuel n).all Char.isDigit = true := by
  intro fuel
  induction fuel with
  | zero => intro n; simp [natToCharsAux]
  | succ f ih =>
    intro n
    cases n with
    | zero => simp [natToCharsAux]
    | succ m =>
      simp only [natToCharsAux, List.all_append]
      simp [ih, digitChar_isDigit (Nat.mod_lt _ (by norm_num))]

lemma natToCharsAux_ne_nil {f m : Nat} : natToCharsAux (f + 1) (m + 1) ≠ [] := by
  simp [natToCharsAux]

lemma natOfDigits_natToCharsAux :
    ∀ fuel n : Nat, n ≤ fuel → natOfDigits (natToCharsAux fuel n) = n := by
  intro fuel
  induction fuel with
  | zero =>
    intro n hn
    have h0 : n = 0 := Nat.le_zero.mp hn
    subst h0
    simp [natToCharsAux, natOfDigits]
  | succ f ih =>
    intro n hn
    cases n with
    | zero => simp [natToCharsAux, natOfDigits]
    | succ m =>
      have hdiv : (m + 1) / 10 ≤ f := by omega
      simp only [natToCharsAux]
      rw [natOfDigits_append_digit, ih _ hdiv,
        toNat_digitChar (Nat.mod_lt _ (by norm_num))]
      omega

lemma allDigits_natToChars (n : Nat) : allDigits (natToChars n) = true := by
  unfold natToChars
  split_ifs with h
  · decide
  · rw [allDigits_iff]
    refine ⟨?_, natToCharsAux_all n n⟩
    cases n with
    | zero => exact absurd rfl h
    | succ m =>
      have hne : natToCharsAux (m + 1) (m + 1) ≠ [] := natToCharsAux_ne_nil
      cases hv : natToCharsAux (m + 1) (m + 1) with
      | nil => exact absurd hv hne
      | cons c cs => simp

lemma natOfDigits_natToChars (n : Nat) : natOfDigits (natToChars n) = n := by
  unfold natToChars
  split_ifs with h
  · rw [h]; decide
  · exact natOfDigits_natToCharsAux n n le_rfl

/-! ### Helper lemmas about the comparison chain -/

lemma compareVersions_ver_ver (a b : Version) :
    compareVersions (.ver a) (.ver b) =
      .ok (if a.major > b.major then .Greater
        else if a.major < b.major then .Less
        else if a.minor > b.minor then .Greater
        else if a.minor < b.minor then .Less
        else if a.patch > b.patch then .Greater
        else if a.patch < b.patch then .Less
        else .Equivalent) := by
  simp only [compareVersions, resolveVersionArg]
  split_ifs <;> rfl

lemma compareVersions_eq_greater {a b : Version} :
    compareVersions (.ver a) (.ver b) = .ok .Greater ↔
      b.major < a.major ∨ (a.major = b.major ∧ b.minor < a.minor) ∨
        (a.major = b.major ∧ a.minor = b.minor ∧ b.patch < a.patch) := by
  rw [compareVersions_ver_ver]
  simp only [Except.ok.injEq]
  split_ifs <;> simp <;> omega

lemma compareVersions_eq_less {a b : Version} :
    compareVersions (.ver a) (.ver b) = .ok .Less ↔
      a.major < b.major ∨ (a.major = b.major ∧ a.minor < b.minor) ∨
        (a.major = b.major ∧ a.minor = b.minor ∧ a.patch < b.patch) := by
  rw [compareVersions_ver_ver]
  simp only [Except.ok.injEq]
  split_ifs <;> simp <;> omega

lemma compareVersions_eq_equivalent {a b : Version} :
    compareVersions (.ver a) (.ver b) = .ok .Equivalent ↔
      a.major = b.major ∧ a.minor = b.minor ∧ a.patch = b.patch := by
  rw [compareVersions_ver_ver]
  simp only [Except.ok.injEq]
  split_ifs <;> simp <;> omega

/-! ### The claims -/

/-- C1: `compareVersions` on two `Version` values is the lexicographic
comparison of the ordered triple (major, minor, patch): a difference in
the majors decides the result, otherwise a difference in the minors,
otherwise a difference in the patches, and `Equivalent` when all three
components agree. -/
theorem C1_compareVersions_lexicographic (a b : Version) :
    compareVersions (.ver a) (.ver b) =
      .ok (if a.major ≠ b.major then (if a.major > b.major then .Greater else .Less)
        else if a.minor ≠ b.minor then (if a.minor > b.minor then .Greater else .Less)
        else if a.patch ≠ b.patch then (if a.patch > b.patch then .Greater else .Less)
        else .Equivalent) := by
  rw [compareVersions_ver_ver]
  congr 1
  split_ifs <;> first | rfl | omega

/-- C4: `compareVersions` is a total order on versions: it is reflexive
(`Equivalent` on equal arguments), returns exactly one of the three
orderings for any pair, is antisymmetric (`Greater` one way iff `Less`
the other way), and `Greater` is transitive. -/
theorem C4_compareVersions_total_order :
    (∀ v : Version, compareVersions (.ver v) (.ver v) = .ok .Equivalent) ∧
    (∀ a b : Version, ∃ o : Ordering, compareVersions (.ver a) (.ver b) = .ok o ∧
      ∀ o' : Ordering, compareVersions (.ver a) (.ver b) = .ok o' → o' = o) ∧
    (∀ a b : Version, compareVersions (.ver a) (.ver b) = .ok .Greater ↔
      compareVersions (.ver b) (.ver a) = .ok .Less) ∧
    (∀ a b c : Version,
      compareVersions (.ver a) (.ver b) = .ok .Greater →
      compareVersions (.ver b) (.ver c) = .ok .Greater →
      compareVersions (.ver a) (.ver c) = .ok .Greater) := by
  refine ⟨?_, ?_, ?_, ?_⟩
  · intro v
    rw [compareVersions_eq_equivalent]
    exact ⟨rfl, rfl, rfl⟩
  · intro a b
    refine ⟨_, compareVersions_ver_ver a b, ?_⟩
    intro o' h'
    rw [compareVersions_ver_ver] at h'
    simp only [Except.ok.injEq] at h'
    exact h'.symm
  · intro a b
    rw [compareVersions_eq_greater, compareVersions_eq_less]
    omega
  · intro a b c hab hbc
    rw [compareVersions_eq_greater] at hab hbc ⊢
    omega

/-- C4 witness: the transitivity part at 3.0.0 > 2.0.0 > 1.0.0. -/
theorem C4_compareVersions_total_order_witness :
    compareVersions (.ver ⟨3, 0, 0⟩) (.ver ⟨1, 0, 0⟩) = .ok .Greater :=
  C4_compareVersions_total_order.2.2.2 ⟨3, 0, 0⟩ ⟨2, 0, 0⟩ ⟨1, 0, 0⟩
    (by decide) (by decide)

/-- C5: a string argument of `compareVersions` is parsed with
`parseVersion` before comparison, a parse failure propagates to the
caller, and a valid version string compares `Equivalent` to the
`Version` it parses to — in particular `"1.2.3"` against
`{major := 1, minor := 2, patch := 3}`. -/
theorem C5_compareVersions_string_arguments :
    (∀ (s : String) (v : Version), parseVersion s = .ok v →
      compareVersions (.str s) (.ver v) = .ok .Equivalent) ∧
    compareVersions (.str "1.2.3") (.ver ⟨1, 2, 3⟩) = .ok .Equivalent ∧
    (∀ (s : String) (e : VersionError), parseVersion s = .error e →
      ∀ b : VersionArg, compareVersions (.str s) b = .error e) := by
  refine ⟨?_, by decide, ?_⟩
  · intro s v h
    simp [compareVersions, resolveVersionArg, h]
  · intro s e h b
    simp [compareVersions, resolveVersionArg, h]

/-- C5 witness: the parse-then-compare part at the valid string
`"1.2.3"`. -/
theorem C5_compareVersions_string_arguments_witness :
    compareVersions (.str "1.2.3") (.ver ⟨1, 2, 3⟩) = .ok .Equivalent :=
  C5_compareVersions_string_arguments.1 "1.2.3" ⟨1, 2, 3⟩ (by decide)

/-- C7: each boolean wrapper is exactly the stated predicate over
`compareVersions`, and in particular
`versionGreaterOrEquals "1.0.0" "1.0.0"` and
`versionLess "1.0.0" "1.0.1"` both hold. -/
theorem C7_boolean_wrappers :
    (∀ a b : VersionArg, versionGreater a b = .ok true ↔
      compareVersions a b = .ok .Greater) ∧
    (∀ a b : VersionArg, versionGreaterOrEquals a b = .ok true ↔
      (compareVersions a b = .ok .Greater ∨ compareVersions a b = .ok .Equivalent)) ∧
    (∀ a b : VersionArg, versionEquals a b = .ok true ↔
      compareVersions a b = .ok .Equivalent) ∧
    (∀ a b : VersionArg, versionLess a b = .ok true ↔
      compareVersions a b = .ok .Less) ∧
    (∀ a b : VersionArg, versionLessOrEquals a b = .ok true ↔
      (compareVersions a b = .ok .Less ∨ compareVersions a b = .ok .Equivalent)) ∧
    versionGreaterOrEquals (.str "1.0.0") (.str "1.0.0") = .ok true ∧
    versionLess (.str "1.0.0") (.str "1.0.1") = .ok true := by
  refine ⟨?_, ?_, ?_, ?_, ?_, by decide, by decide⟩ <;> intro a b <;>
    cases h : compareVersions a b with
  | error e =>
    simp [versionGreater, versionGreaterOrEquals, versionEquals, versionLess,
      versionLessOrEquals, Except.map, h]
  | ok o =>
    cases o <;>
      simp [versionGreater, versionGreaterOrEquals, versionEquals, versionLess,
        versionLessOrEquals, Except.map, h] <;> decide

/-- C8: the numeric-difference comparator `compareVersion` and the
`Ordering`-valued `compareVersions` implement the same order: the sign
of the former determines the result of the latter. -/
theorem C8_compareVersion_sign_agreement (a b : Version) :
    (0 < compareVersion a b ↔ compareVersions (.ver a) (.ver b) = .ok .Greater) ∧
    (compareVersion a b = 0 ↔ compareVersions (.ver a) (.ver b) = .ok .Equivalent) ∧
    (compareVersion a b < 0 ↔ compareVersions (.ver a) (.ver b) = .ok .Less) := by
  refine ⟨?_, ?_, ?_⟩
  · rw [compareVersions_eq_greater]
    unfold compareVersion
    split_ifs <;> omega
  · rw [compareVersions_eq_equivalent]
    unfold compareVersion
    split_ifs <;> omega
  · rw [compareVersions_eq_less]
    unfold compareVersion
    split_ifs <;> omega

/-- C2: on any string containing a digits-dot-digits-dot-digits
substring, `parseVersion` succeeds, and the returned fields are the
base-10 values of three digit groups actually occurring in the string
in pattern shape, with the rest of the string discarded; in particular
`parseVersion "1.2.3-rc1"` is `{major := 1, minor := 2, patch := 3}`. -/
theorem C2_parseVersion_succeeds_on_pattern :
    (∀ (s : String) (pre d1 d2 d3 suf : List Char),
      s.data = pre ++ (d1 ++ '.' :: (d2 ++ '.' :: (d3 ++ suf))) →
      allDigits d1 = true → allDigits d2 = true → allDigits d3 = true →
      ∃ pre2 e1 e2 e3 suf2,
        s.data = pre2 ++ (e1 ++ '.' :: (e2 ++ '.' :: (e3 ++ suf2))) ∧
        allDigits e1 = true ∧ allDigits e2 = true ∧ allDigits e3 = true ∧
        parseVersion s = .ok ⟨natOfDigits e1, natOfDigits e2, natOfDigits e3⟩) ∧
    parseVersion "1.2.3-rc1" = .ok ⟨1, 2, 3⟩ := by
  refine ⟨?_, by decide⟩
  intro s pre d1 d2 d3 suf hs h1 h2 h3
  have hdrop : (matchAt (s.data.drop pre.length)).isSome = true := by
    rw [hs, List.drop_left]
    exact matchAt_shape_isSome suf h1 h2 h3
  have hfm : (findMatch s.data).isSome = true := findMatch_isSome_of_drop hdrop
  obtain ⟨⟨e1, e2, e3, r⟩, hm⟩ := Option.isSome_iff_exists.mp hfm
  obtain ⟨pre2, hdec, a1, a2, a3⟩ := findMatch_eq_some hm
  refine ⟨pre2, e1, e2, e3, r, hdec, a1, a2, a3, ?_⟩
  simp [parseVersion, execVersionRe, hm, List.get?]

/-- C2 witness: the general part instantiated at `"1.2.3-rc1"` with the
decomposition `[] ++ "1" ++ "." ++ "2" ++ "." ++ "3" ++ "-rc1"`. -/
theorem C2_parseVersion_succeeds_on_pattern_witness :
    ∃ pre2 e1 e2 e3 suf2,
      ("1.2.3-rc1" : String).data = pre2 ++ (e1 ++ '.' :: (e2 ++ '.' :: (e3 ++ suf2))) ∧
      allDigits e1 = true ∧ allDigits e2 = true ∧ allDigits e3 = true ∧
      parseVersion "1.2.3-rc1" = .ok ⟨natOfDigits e1, natOfDigits e2, natOfDigits e3⟩ :=
  C2_parseVersion_succeeds_on_pattern.1 "1.2.3-rc1" [] ['1'] ['2'] ['3']
    ['-', 'r', 'c', '1'] (by decide) (by decide) (by decide) (by decide)

/-- C3: on a string with no digits-dot-digits-dot-digits substring,
`parseVersion` fails with `InvalidVersionString`, the only error kind of
the version core, and the message contains the offending input. -/
theorem C3_parseVersion_invalid_version_string :
    ∀ s : String,
      (¬ ∃ pre d1 d2 d3 suf : List Char,
        s.data = pre ++ (d1 ++ '.' :: (d2 ++ '.' :: (d3 ++ suf))) ∧
        allDigits d1 = true ∧ allDigits d2 = true ∧ allDigits d3 = true) →
      ∃ msg : String, parseVersion s = .error (.InvalidVersionString msg) ∧
        ∃ t u : List Char, msg.data = t ++ s.data ++ u := by
  intro s hno
  have hfm : findMatch s.data = none := by
    cases hm : findMatch s.data with
    | none => rfl
    | some m =>
      obtain ⟨m1, m2, m3, m4⟩ := m
      obtain ⟨pre, hdec, a1, a2, a3⟩ := findMatch_eq_some hm
      exact absurd ⟨pre, m1, m2, m3, m4, hdec, a1, a2, a3⟩ hno
  refine ⟨"Invalid version string " ++ s, ?_, "Invalid version string ".data, [], ?_⟩
  · simp [parseVersion, execVersionRe, hfm]
  · rw [String.data_append]
    simp

/-- C3 witness: `"abc"` has no dot at all, hence no pattern substring,
and parsing fails with a message containing `"abc"`. -/
theorem C3_parseVersion_invalid_version_string_witness :
    ∃ msg : String, parseVersion "abc" = .error (.InvalidVersionString msg) ∧
      ∃ t u : List Char, msg.data = t ++ ("abc" : String).data ++ u :=
  C3_parseVersion_invalid_version_string "abc" (by
    rintro ⟨pre, d1, d2, d3, suf, heq, -, -, -⟩
    have hmem : '.' ∈ ("abc" : String).data := by
      rw [heq]; simp
    exact absurd hmem (by decide))

/-- C9: whenever the embedded `exec` succeeds, capture groups 1–3 are
present and are non-empty digit strings, so the `?? '0'` fallbacks are
never taken; and every successfully parsed `Version` has non-negative
fields. -/
theorem C9_capture_groups_always_present :
    (∀ (l : List Char) (mat : List (List Char)), execVersionRe l = some mat →
      ∃ d1 d2 d3, mat.get? 1 = some d1 ∧ mat.get? 2 = some d2 ∧ mat.get? 3 = some d3 ∧
        allDigits d1 = true ∧ allDigits d2 = true ∧ allDigits d3 = true ∧
        (∀ v : Version, parseVersion ⟨l⟩ = .ok v →
          v = ⟨natOfDigits d1, natOfDigits d2, natOfDigits d3⟩)) ∧
    (∀ (s : String) (v : Version), parseVersion s = .ok v →
      0 ≤ (v.major : Int) ∧ 0 ≤ (v.minor : Int) ∧ 0 ≤ (v.patch : Int)) := by
  constructor
  · intro l mat hm
    unfold execVersionRe at hm
    cases hfm : findMatch l with
    | none => rw [hfm] at hm; exact absurd hm (by simp)
    | some q =>
      obtain ⟨d1, d2, d3, rest⟩ := q
      rw [hfm] at hm
      simp only [Option.some.injEq] at hm
      obtain ⟨pre, hdec, a1, a2, a3⟩ := findMatch_eq_some hfm
      subst hm
      refine ⟨d1, d2, d3, by simp [List.get?], by simp [List.get?], by simp [List.get?],
        a1, a2, a3, ?_⟩
      intro v hv
      simp [parseVersion, execVersionRe, hfm, List.get?] at hv
      exact hv.symm
  · intro s v _
    exact ⟨Int.natCast_nonneg _, Int.natCast_nonneg _, Int.natCast_nonneg _⟩

/-- C9 witness: the first part at the string `"1.2.3"` and its concrete
exec array. -/
theorem C9_capture_groups_always_present_witness :
    ∃ d1 d2 d3,
      ([['1', '.', '2', '.', '3'], ['1'], ['2'], ['3'],
        ([] : List Char)] : List (List Char)).get? 1 = some d1 ∧
      ([['1', '.', '2', '.', '3'], ['1'], ['2'], ['3'],
        ([] : List Char)] : List (List Char)).get? 2 = some d2 ∧
      ([['1', '.', '2', '.', '3'], ['1'], ['2'], ['3'],
        ([] : List Char)] : List (List Char)).get? 3 = some d3 ∧
      allDigits d1 = true ∧ allDigits d2 = true ∧ allDigits d3 = true ∧
      (∀ v : Version, parseVersion ⟨("1.2.3" : String).data⟩ = .ok v →
        v = ⟨natOfDigits d1, natOfDigits d2, natOfDigits d3⟩) :=
  C9_capture_groups_always_present.1 ("1.2.3" : String).data
    [['1', '.', '2', '.', '3'], ['1'], ['2'], ['3'], []] (by decide)

/-- C10: `parseVersion` uses the leftmost occurrence of the pattern:
the search succeeds exactly at the first start position where an
anchored match exists (all earlier positions fail), and in particular
`parseVersion "1.2.3 then 9.9.9"` is `{major := 1, minor := 2,
patch := 3}`. -/
theorem C10_parseVersion_leftmost_occurrence :
    parseVersion "1.2.3 then 9.9.9" = .ok ⟨1, 2, 3⟩ ∧
    ∀ (l : List Char) (m : List Char × List Char × List Char × List Char),
      findMatch l = some m →
      ∃ i, matchAt (l.drop i) = some m ∧ ∀ j, j < i → matchAt (l.drop j) = none :=
  ⟨by decide, fun _ _ h => findMatch_leftmost h⟩

/-- C10 witness: the leftmost-position part at `"a1.2.3"`, whose match
starts at index 1. -/
theorem C10_parseVersion_leftmost_occurrence_witness :
    ∃ i, matchAt (("a1.2.3" : String).data.drop i) = some (['1'], ['2'], ['3'], []) ∧
      ∀ j, j < i → matchAt (("a1.2.3" : String).data.drop j) = none :=
  C10_parseVersion_leftmost_occurrence.2 ("a1.2.3" : String).data
    (['1'], ['2'], ['3'], []) (by decide)

/-- C6: `versionToString` renders `"{major}.{minor}.{patch}"` and
parsing that string back returns the original `Version`. -/
theorem C6_versionToString_roundtrip (v : Version) :
    versionToString v =
      natToString v.major ++ "." ++ natToString v.minor ++ "." ++ natToString v.patch ∧
    parseVersion (versionToString v) = .ok v := by
  refine ⟨rfl, ?_⟩
  have hdata : (versionToString v).data =
      natToChars v.major ++ '.' :: (natToChars v.minor ++ '.' :: natToChars v.patch) := by
    simp [versionToString, natToString, String.data_append]
  have hmatch : findMatch (versionToString v).data =
      some (natToChars v.major, natToChars v.minor, natToChars v.patch, []) := by
    rw [hdata]
    have hA := allDigits_natToChars v.major
    have hB := allDigits_natToChars v.minor
    have hC := allDigits_natToChars v.patch
    have hex := matchAt_exact hA hB hC
    cases hA' : natToChars v.major with
    | nil => rw [hA', allDigits_iff] at hA; simp at hA
    | cons c cs =>
      rw [hA', List.cons_append] at hex
      rw [List.cons_append]
      exact findMatch_cons_some hex
  simp [parseVersion, execVersionRe, hmatch, List.get?, natOfDigits_natToChars]

end Util
